import Mathlib

/-!
# Verification of the LiveMod value/schema codec and reflection bindings

Shallow embedding of the `livemod` crate (`livemod-lib/src/lib.rs`,
`livemod-lib/src/enabled.rs`, `livemod-derive/src/lib.rs`).

Rust byte streams (`Iterator<Item = u8>`) are modelled as `List Nat`
(each element a byte value), and Rust `String`s are modelled by their
UTF-8 byte sequences (`ByteStr`).  Machine integers are modelled as
`Nat`/`Int` with explicit `% 2^w` at the points where the source performs
an `as` cast.  Fallible operations return `Option`/`DesResult`; a Rust
panic (`unwrap`, out-of-bounds index) is modelled by `none` / `.panic`.

The `Float` parameter kind (`f64`, serialized through Rust's `Display`)
is not modelled: decimal formatting of IEEE floats is outside this
embedding.  No theorem below touches the float kind; the `d` tag in the
deserializer is mapped to `.panic` and is unreachable in every statement.
-/

namespace LiveMod

/-- A Rust byte string (`Vec<u8>` / the UTF-8 bytes of a `String`). -/
abbrev ByteStr := List Nat

/-- Bytes of an ASCII string literal (used only for ASCII constants). -/
def bytes (s : String) : ByteStr := s.data.map Char.toNat

/-! ## Decimal formatting and parsing

`format!("{}", n)` on an unsigned integer and `str::parse` are modelled
by `natBytes` / `parseNat?`; the signed versions add the `-` sign. -/

/-- Little-endian base-10 digits, by fuel (structural, so it reduces). -/
def digitsLE : Nat → Nat → List Nat
  | 0, _ => []
  | f + 1, n => if n = 0 then [] else n % 10 :: digitsLE f (n / 10)

/-- Decimal bytes of a natural number, as Rust's `Display` prints it. -/
def natBytes (n : Nat) : ByteStr :=
  if n = 0 then [48] else (digitsLE n n).reverse.map (fun d => d + 48)

/-- Decimal bytes of an `i64`-style signed integer. -/
def intBytes (i : Int) : ByteStr :=
  if i < 0 then 45 :: natBytes i.natAbs else natBytes i.toNat

def isDigitByte (b : Nat) : Bool := 48 ≤ b && b ≤ 57

/-- Bytes accepted by the deserializer's integer `take_while`
(`is_ascii_digit() || b == b'-'`). -/
def isIntByte (b : Nat) : Bool := isDigitByte b || b = 45

def parseNatGo : ByteStr → Nat → Option Nat
  | [], acc => some acc
  | b :: rest, acc =>
    if isDigitByte b then parseNatGo rest (acc * 10 + (b - 48)) else none

/-- `str::parse::<u64>` / `::<usize>`: optional `+`, then one or more digits. -/
def parseNat? : ByteStr → Option Nat
  | [] => none
  | b :: rest =>
    if b = 43 then (if rest.isEmpty then none else parseNatGo rest 0)
    else parseNatGo (b :: rest) 0

/-- `str::parse::<i64>`: optional sign, then one or more digits. -/
def parseInt? : ByteStr → Option Int
  | [] => none
  | b :: rest =>
    if b = 45 then Option.map (fun n : Nat => -(n : Int)) (parseNat? rest)
    else if b = 43 then Option.map (fun n : Nat => (n : Int)) (parseNat? rest)
    else Option.map (fun n : Nat => (n : Int)) (parseNat? (b :: rest))

/-! ### Inverse lemmas for the decimal codec -/

/-- Value of a little-endian digit list. -/
def ofLE : List Nat → Nat
  | [] => 0
  | d :: ds => d + 10 * ofLE ds

theorem ofLE_digitsLE : ∀ f n, n ≤ f → ofLE (digitsLE f n) = n := by
  intro f
  induction f with
  | zero => intro n h; interval_cases n; simp [digitsLE, ofLE]
  | succ f ih =>
    intro n h
    by_cases h0 : n = 0
    · simp [digitsLE, h0, ofLE]
    · have hdiv : n / 10 ≤ f := by
        have : n / 10 < n := Nat.div_lt_self (Nat.pos_of_ne_zero h0) (by norm_num)
        omega
      simp only [digitsLE, h0, if_false, ofLE, ih _ hdiv]
      omega

theorem digitsLE_lt : ∀ f n d, d ∈ digitsLE f n → d < 10 := by
  intro f
  induction f with
  | zero => intro n d h; simp [digitsLE] at h
  | succ f ih =>
    intro n d h
    by_cases h0 : n = 0
    · simp [digitsLE, h0] at h
    · simp only [digitsLE, h0, if_false, List.mem_cons] at h
      rcases h with h | h
      · subst h; exact Nat.mod_lt _ (by norm_num)
      · exact ih _ _ h

theorem parseNatGo_append (xs ys : ByteStr) (acc : Nat) :
    parseNatGo (xs ++ ys) acc =
      match parseNatGo xs acc with
      | some a => parseNatGo ys a
      | none => none := by
  induction xs generalizing acc with
  | nil => simp [parseNatGo]
  | cons b rest ih =>
    by_cases hb : isDigitByte b
    · simp [parseNatGo, hb, ih]
    · simp [parseNatGo, hb]

theorem parseNatGo_revdigits (ds : List Nat) (acc : Nat)
    (h : ∀ d ∈ ds, d < 10) :
    parseNatGo (ds.reverse.map (fun d => d + 48)) acc =
      some (acc * 10 ^ ds.length + ofLE ds) := by
  induction ds generalizing acc with
  | nil => simp [parseNatGo, ofLE]
  | cons d ds ih =>
    have hd : d < 10 := h d (List.mem_cons_self _ _)
    have hds : ∀ x ∈ ds, x < 10 := fun x hx => h x (List.mem_cons_of_mem _ hx)
    simp only [List.reverse_cons, List.map_append, List.map_cons, List.map_nil]
    rw [parseNatGo_append, ih acc hds]
    have hdig : isDigitByte (d + 48) = true := by
      simp [isDigitByte]; omega
    simp only [parseNatGo, hdig, if_true, ofLE, List.length_cons]
    congr 1
    have : d + 48 - 48 = d := by omega
    rw [this]
    ring

theorem natBytes_ne_nil (n : Nat) : natBytes n ≠ [] := by
  unfold natBytes
  by_cases h0 : n = 0
  · simp [h0]
  · simp only [h0, if_false]
    obtain ⟨m, rfl⟩ : ∃ m, n = m + 1 := ⟨n - 1, by omega⟩
    simp [digitsLE]

theorem mem_natBytes_digit (n : Nat) : ∀ b ∈ natBytes n, isDigitByte b = true := by
  intro b hb
  unfold natBytes at hb
  by_cases h0 : n = 0
  · simp [h0] at hb; simp [hb, isDigitByte]
  · simp only [h0, if_false, List.mem_map, List.mem_reverse] at hb
    obtain ⟨d, hd, rfl⟩ := hb
    have := digitsLE_lt n n d hd
    simp [isDigitByte]; omega

theorem parseNatGo_natBytes (n : Nat) : parseNatGo (natBytes n) 0 = some n := by
  unfold natBytes
  by_cases h0 : n = 0
  · simp [h0, parseNatGo, isDigitByte]
  · simp only [h0, if_false]
    rw [parseNatGo_revdigits _ _ (fun d hd => digitsLE_lt n n d hd)]
    rw [ofLE_digitsLE n n le_rfl]
    simp

theorem parseNat_natBytes (n : Nat) : parseNat? (natBytes n) = some n := by
  rcases hn : natBytes n with _ | ⟨b, rest⟩
  · exact absurd hn (natBytes_ne_nil n)
  · have hb : isDigitByte b = true := by
      have := mem_natBytes_digit n b (by rw [hn]; exact List.mem_cons_self _ _)
      exact this
    have hb43 : b ≠ 43 := by simp [isDigitByte] at hb; omega
    simp only [parseNat?, hb43, if_false]
    rw [← hn, parseNatGo_natBytes]

theorem parseInt_of_digits (bs : ByteStr) (hne : bs ≠ [])
    (hd : ∀ b ∈ bs, isDigitByte b = true) :
    parseInt? bs = Option.map (fun n : Nat => (n : Int)) (parseNat? bs) := by
  rcases bs with _ | ⟨b, rest⟩
  · exact absurd rfl hne
  · have hb := hd b (List.mem_cons_self _ _)
    have h45 : b ≠ 45 := by simp [isDigitByte] at hb; omega
    have h43 : b ≠ 43 := by simp [isDigitByte] at hb; omega
    simp [parseInt?, h45, h43]

theorem parseInt_intBytes (i : Int) : parseInt? (intBytes i) = some i := by
  by_cases hneg : i < 0
  · have hi : intBytes i = 45 :: natBytes i.natAbs := by simp [intBytes, hneg]
    have h45 : parseInt? (45 :: natBytes i.natAbs) =
        Option.map (fun n : Nat => -(n : Int)) (parseNat? (natBytes i.natAbs)) := by
      simp [parseInt?]
    rw [hi, h45, parseNat_natBytes]
    have : -((i.natAbs : Nat) : Int) = i := by omega
    rw [Option.map_some', this]
  · have hi : intBytes i = natBytes i.toNat := by simp [intBytes, hneg]
    rw [hi, parseInt_of_digits _ (natBytes_ne_nil _) (mem_natBytes_digit _),
      parseNat_natBytes]
    have : ((i.toNat : Nat) : Int) = i := by omega
    rw [Option.map_some', this]

/-! ## The value/schema tree (`Parameter<T>` / `Namespaced<T>`)

The Rust types carry a phantom marker `T` (`Repr` vs `Value`) that has no
runtime content and no effect on (de)serialization; it is dropped here.
The `Float(f64)` constructor is not modelled (see the header comment).
`Namespaced`'s `parameters: LinkedHashMap<String, Parameter>` is modelled
as an insertion-ordered association list. -/

inductive Parameter where
  | signedInt (i : Int)
  | unsignedInt (n : Nat)
  | boolP (b : Bool)
  | stringP (s : ByteStr)
  | namespacedP (name : List ByteStr) (params : List (ByteStr × Parameter))

/-- `Namespaced<T>`: a dotted type name plus labelled parameters. -/
structure Namespaced where
  name : List ByteStr
  parameters : List (ByteStr × Parameter)

/-- `[..].join(":")` on the name segments. -/
def joinByte (sep : Nat) : List ByteStr → ByteStr
  | [] => []
  | [x] => x
  | x :: xs => x ++ sep :: joinByte sep xs

mutual

/-- `Parameter::serialize` (lib.rs lines 134-144), producing UTF-8 bytes. -/
def serializeParameter : Parameter → ByteStr
  | .signedInt i => 105 :: intBytes i
  | .unsignedInt n => 117 :: natBytes n
  | .boolP true => [116]
  | .boolP false => [102]
  | .stringP s => 115 :: (natBytes s.length ++ 45 :: s)
  | .namespacedP name params =>
      110 :: (joinByte 58 name ++ 123 :: (serializeParams params ++ [125]))

/-- The `for (k, v) in self.parameters` loop of `Namespaced::serialize`. -/
def serializeParams : List (ByteStr × Parameter) → ByteStr
  | [] => []
  | (k, v) :: rest => k ++ 61 :: (serializeParameter v ++ 59 :: serializeParams rest)

end

/-- `Namespaced::serialize` (lib.rs lines 294-305). -/
def Namespaced.serialize (n : Namespaced) : ByteStr :=
  joinByte 58 n.name ++ 123 :: (serializeParams n.parameters ++ [125])

/-! ## Deserialization

`DeserializeError` as in lib.rs (the `NonUTF8` case cannot arise in this
byte-level model, where `String::from_utf8` is the identity on the byte
sequence; it is kept for completeness).  `DesResult` is the outcome of a
deserializer call: `ok` with the unconsumed rest of the stream, `err`
for a returned `Err`, and `panic` for a Rust panic (`unwrap` on a missing
first byte or on a failed numeric parse). -/

inductive DeserializeError where
  | unexpectedEOF
  | unexpectedTerminator (previous : ByteStr)
  | invalidParameter (b : Nat)
  | nonUTF8
  deriving DecidableEq

inductive DesResult (α : Type) where
  | ok (val : α) (rest : List Nat)
  | err (e : DeserializeError)
  | panic

/-- `iter.take_while(p)` used through `&mut`: returns the matching prefix
and the stream after it, with the first non-matching byte consumed and
discarded (the "Terminating `;` consumed by take_while" comments). -/
def spanConsume (p : Nat → Bool) : List Nat → ByteStr × List Nat
  | [] => ([], [])
  | b :: rest =>
    if p b then
      let (x, y) := spanConsume p rest
      (b :: x, y)
    else ([], rest)

/-- The name-reading loop of `Namespaced::deserialize`: bytes until `{`. -/
def takeUntilByte (stop : Nat) : List Nat → Option (ByteStr × List Nat)
  | [] => none
  | b :: rest =>
    if b = stop then some ([], rest)
    else (takeUntilByte stop rest).map (fun pr => (b :: pr.1, pr.2))

/-- `str::split(':')` at the byte level. -/
def splitByte (sep : Nat) : List Nat → List ByteStr
  | [] => [[]]
  | b :: rest =>
    if b = sep then [] :: splitByte sep rest
    else
      match splitByte sep rest with
      | s :: ss => (b :: s) :: ss
      | [] => [[b]]

def isWsByte (b : Nat) : Bool :=
  b = 9 || b = 10 || b = 11 || b = 12 || b = 13 || b = 32

/-- `str::trim` restricted to single-byte (ASCII) whitespace. -/
def trimBytes (s : ByteStr) : ByteStr :=
  ((s.dropWhile isWsByte).reverse.dropWhile isWsByte).reverse

/-- Result of the key-reading part of `Namespaced::deserialize`'s loop. -/
inductive ReadKeyResult where
  | endParams (rest : List Nat)
  | key (k : ByteStr) (rest : List Nat)
  | fail (e : DeserializeError)

/-- Inner key loop: bytes until `=`; `}` mid-key is `UnexpectedTerminator`. -/
def readKeyLoop (k : ByteStr) : List Nat → ReadKeyResult
  | [] => .fail .unexpectedEOF
  | b :: rest =>
    if b = 125 then .fail (.unexpectedTerminator k)
    else if b = 61 then .key k rest
    else readKeyLoop (k ++ [b]) rest

/-- Key reading: first byte `}` ends the parameter list. -/
def readKey : List Nat → ReadKeyResult
  | [] => .fail .unexpectedEOF
  | b :: rest => if b = 125 then .endParams rest else readKeyLoop [b] rest

/-- `LinkedHashMap::insert`: replace in place if the key exists
(keeping its position), otherwise append. -/
def insertLHM : List (ByteStr × Parameter) → ByteStr → Parameter →
    List (ByteStr × Parameter)
  | [], k, v => [(k, v)]
  | (k', v') :: rest, k, v =>
    if k' = k then (k', v) :: rest else (k', v') :: insertLHM rest k v

mutual

/-- `Parameter::deserialize` (lib.rs lines 146-174), fuelled.  The fuel is
an artifact of the embedding (each level strictly consumes input, so the
wrappers below always supply enough); fuel exhaustion is unreachable and
mapped to `.panic`.  The `d` (float) tag is not modelled and also maps to
`.panic`; no theorem exercises it. -/
def deserializeParameterF : Nat → List Nat → DesResult Parameter
  | 0, _ => .panic
  | f + 1, s =>
    match s with
    | [] => .panic
    | b :: rest =>
      if b = 105 then
        let pr := spanConsume isIntByte rest
        match parseInt? pr.1 with
        | some i => .ok (.signedInt i) pr.2
        | none => .panic
      else if b = 100 then .panic
      else if b = 117 then
        let pr := spanConsume isIntByte rest
        match parseNat? pr.1 with
        | some n => .ok (.unsignedInt n) pr.2
        | none => .panic
      else if b = 116 then .ok (.boolP true) rest.tail
      else if b = 102 then .ok (.boolP false) rest.tail
      else if b = 115 then
        let pr := spanConsume isDigitByte rest
        match parseNat? pr.1 with
        | some len => .ok (.stringP (pr.2.take len)) (pr.2.drop len).tail
        | none => .panic
      else if b = 110 then
        match deserializeNamespacedF f rest with
        | .ok n r => .ok (.namespacedP n.name n.parameters) r.tail
        | .err e => .err e
        | .panic => .panic
      else .err (.invalidParameter b)

/-- `Namespaced::deserialize` (lib.rs lines 307-355), fuelled. -/
def deserializeNamespacedF : Nat → List Nat → DesResult Namespaced
  | 0, _ => .panic
  | f + 1, s =>
    match takeUntilByte 123 s with
    | none => .err .unexpectedEOF
    | some (nameBytes, rest) =>
      let nm := (splitByte 58 nameBytes).map trimBytes
      match parseParamsF f rest [] with
      | .ok ps r => .ok ⟨nm, ps⟩ r
      | .err e => .err e
      | .panic => .panic

/-- The parameter-reading loop of `Namespaced::deserialize`, fuelled. -/
def parseParamsF : Nat → List Nat → List (ByteStr × Parameter) →
    DesResult (List (ByteStr × Parameter))
  | 0, _, _ => .panic
  | f + 1, s, acc =>
    match readKey s with
    | .endParams rest => .ok acc rest
    | .fail e => .err e
    | .key k rest =>
      match deserializeParameterF f rest with
      | .ok v r => parseParamsF f r (insertLHM acc k v)
      | .err e => .err e
      | .panic => .panic

end

/-- `Parameter::deserialize` on a whole stream (enough fuel for any input). -/
def Parameter.deserialize (s : List Nat) : DesResult Parameter :=
  deserializeParameterF (s.length + 1) s

/-- `Namespaced::deserialize` on a whole stream. -/
def Namespaced.deserialize (s : List Nat) : DesResult Namespaced :=
  deserializeNamespacedF (s.length + 1) s

/-! ## Well-formedness for round-tripping

The textual format is not injective on arbitrary trees: `:`/`{` inside a
name segment, whitespace at a segment's ends, an empty name list, `=`/`}`
inside a key, an empty key, or duplicate keys are all misread.  `wfParameter`
carves out the trees the format represents faithfully. -/

def wfSegB (seg : ByteStr) : Bool :=
  decide (58 ∉ seg) && decide (123 ∉ seg) && decide (trimBytes seg = seg)

def wfNameB (name : List ByteStr) : Bool :=
  decide (name ≠ []) && name.all wfSegB

def wfKeyB (k : ByteStr) : Bool :=
  decide (k ≠ []) && decide (61 ∉ k) && decide (125 ∉ k)

mutual

def wfParameter : Parameter → Bool
  | .namespacedP name params => wfNameB name && wfParams params
  | _ => true

def wfParams : List (ByteStr × Parameter) → Bool
  | [] => true
  | (k, v) :: rest =>
    wfKeyB k && decide (∀ e ∈ rest, e.1 ≠ k) && wfParameter v && wfParams rest

end

/-! ### Stream-helper lemmas -/

theorem spanConsume_append_stop (p : Nat → Bool) (xs : ByteStr) (y : Nat)
    (t : List Nat) (hxs : ∀ b ∈ xs, p b = true) (hy : p y = false) :
    spanConsume p (xs ++ y :: t) = (xs, t) := by
  induction xs with
  | nil => simp [spanConsume, hy]
  | cons b rest ih =>
    have hb := hxs b (List.mem_cons_self _ _)
    simp only [List.cons_append, spanConsume, hb, if_true, List.append_eq]
    rw [ih (fun x hx => hxs x (List.mem_cons_of_mem _ hx))]

theorem spanConsume_all (p : Nat → Bool) (xs : ByteStr)
    (hxs : ∀ b ∈ xs, p b = true) : spanConsume p xs = (xs, []) := by
  induction xs with
  | nil => simp [spanConsume]
  | cons b rest ih =>
    have hb := hxs b (List.mem_cons_self _ _)
    simp only [spanConsume, hb, if_true, List.append_eq]
    rw [ih (fun x hx => hxs x (List.mem_cons_of_mem _ hx))]

theorem takeUntilByte_append (stop : Nat) (xs : ByteStr) (t : List Nat)
    (h : stop ∉ xs) : takeUntilByte stop (xs ++ stop :: t) = some (xs, t) := by
  induction xs with
  | nil => simp [takeUntilByte]
  | cons b rest ih =>
    have hb : b ≠ stop := fun hc => h (hc ▸ List.mem_cons_self _ _)
    simp only [List.cons_append, takeUntilByte, hb, if_false, List.append_eq]
    rw [ih (fun hc => h (List.mem_cons_of_mem _ hc))]
    rfl

theorem splitByte_no_sep (sep : Nat) (x : ByteStr) (h : sep ∉ x) :
    splitByte sep x = [x] := by
  induction x with
  | nil => rfl
  | cons b rest ih =>
    have hb : b ≠ sep := fun hc => h (hc ▸ List.mem_cons_self _ _)
    simp only [splitByte, hb, if_false, List.append_eq]
    rw [ih (fun hc => h (List.mem_cons_of_mem _ hc))]

theorem splitByte_append_sep (sep : Nat) (x : ByteStr) (rest : List Nat)
    (h : sep ∉ x) :
    splitByte sep (x ++ sep :: rest) = x :: splitByte sep rest := by
  induction x with
  | nil => simp [splitByte]
  | cons b xrest ih =>
    have hb : b ≠ sep := fun hc => h (hc ▸ List.mem_cons_self _ _)
    simp only [List.cons_append, splitByte, hb, if_false, List.append_eq]
    rw [ih (fun hc => h (List.mem_cons_of_mem _ hc))]

theorem splitByte_join (sep : Nat) (name : List ByteStr) (hne : name ≠ [])
    (h : ∀ seg ∈ name, sep ∉ seg) :
    splitByte sep (joinByte sep name) = name := by
  induction name with
  | nil => exact absurd rfl hne
  | cons x xs ih =>
    cases xs with
    | nil => exact splitByte_no_sep sep x (h x (List.mem_cons_self _ _))
    | cons y ys =>
      have hx : sep ∉ x := h x (List.mem_cons_self _ _)
      simp only [joinByte]
      rw [splitByte_append_sep sep x _ hx,
        ih (by simp) (fun seg hs => h seg (List.mem_cons_of_mem _ hs))]

theorem mem_joinByte (sep : Nat) (l : List ByteStr) (b : Nat)
    (h : b ∈ joinByte sep l) : b = sep ∨ ∃ x ∈ l, b ∈ x := by
  induction l with
  | nil => simp [joinByte] at h
  | cons x xs ih =>
    cases xs with
    | nil =>
      right; exact ⟨x, List.mem_cons_self _ _, h⟩
    | cons y ys =>
      simp only [joinByte, List.mem_append, List.mem_cons] at h
      rcases h with h | h | h
      · right; exact ⟨x, List.mem_cons_self _ _, h⟩
      · left; exact h
      · rcases ih h with h' | ⟨z, hz, hb⟩
        · left; exact h'
        · right; exact ⟨z, List.mem_cons_of_mem _ hz, hb⟩

theorem readKeyLoop_append (k : ByteStr) (pre : ByteStr) (rest : List Nat)
    (h61 : 61 ∉ k) (h125 : 125 ∉ k) :
    readKeyLoop pre (k ++ 61 :: rest) = .key (pre ++ k) rest := by
  induction k generalizing pre with
  | nil => simp [readKeyLoop]
  | cons b krest ih =>
    have hb125 : b ≠ 125 := fun hc => h125 (hc ▸ List.mem_cons_self _ _)
    have hb61 : b ≠ 61 := fun hc => h61 (hc ▸ List.mem_cons_self _ _)
    simp only [List.cons_append, readKeyLoop, hb125, hb61, if_false, List.append_eq]
    rw [ih (pre ++ [b]) (fun hc => h61 (List.mem_cons_of_mem _ hc))
      (fun hc => h125 (List.mem_cons_of_mem _ hc))]
    simp

theorem readKey_wf (k : ByteStr) (rest : List Nat) (hne : k ≠ [])
    (h61 : 61 ∉ k) (h125 : 125 ∉ k) :
    readKey (k ++ 61 :: rest) = .key k rest := by
  cases k with
  | nil => exact absurd rfl hne
  | cons b krest =>
    have hb125 : b ≠ 125 := fun hc => h125 (hc ▸ List.mem_cons_self _ _)
    simp only [List.cons_append, readKey, hb125, if_false, List.append_eq]
    rw [readKeyLoop_append krest [b] rest
      (fun hc => h61 (List.mem_cons_of_mem _ hc))
      (fun hc => h125 (List.mem_cons_of_mem _ hc))]
    rfl

theorem readKey_end (rest : List Nat) : readKey (125 :: rest) = .endParams rest := by
  simp [readKey]

theorem insertLHM_append (acc : List (ByteStr × Parameter)) (k : ByteStr)
    (v : Parameter) (h : ∀ e ∈ acc, e.1 ≠ k) :
    insertLHM acc k v = acc ++ [(k, v)] := by
  induction acc with
  | nil => rfl
  | cons e rest ih =>
    obtain ⟨k', v'⟩ := e
    have hk : k' ≠ k := h (k', v') (List.mem_cons_self _ _)
    simp only [insertLHM, hk, if_false, List.cons_append]
    rw [ih (fun x hx => h x (List.mem_cons_of_mem _ hx))]

theorem mem_intBytes_int (i : Int) : ∀ b ∈ intBytes i, isIntByte b = true := by
  intro b hb
  unfold intBytes at hb
  by_cases hneg : i < 0
  · simp only [hneg, if_true, List.mem_cons] at hb
    rcases hb with rfl | hb
    · simp [isIntByte]
    · simp [isIntByte, mem_natBytes_digit _ b hb]
  · simp only [hneg, if_false] at hb
    simp [isIntByte, mem_natBytes_digit _ b hb]

theorem take_append_self {α : Type} (xs ys : List α) :
    (xs ++ ys).take xs.length = xs := by
  induction xs with
  | nil => simp
  | cons b rest ih => simp [ih]

theorem drop_append_self {α : Type} (xs ys : List α) :
    (xs ++ ys).drop xs.length = ys := by
  induction xs with
  | nil => simp
  | cons b rest ih => simp [ih]

theorem serializeParameter_length_pos (p : Parameter) :
    1 ≤ (serializeParameter p).length := by
  cases p with
  | boolP b => cases b <;> simp [serializeParameter]
  | signedInt i => simp [serializeParameter]
  | unsignedInt n => simp [serializeParameter]
  | stringP s => simp [serializeParameter]
  | namespacedP nm ps => simp [serializeParameter]

theorem wfNameB_parts (nm : List ByteStr) (h : wfNameB nm = true) :
    nm ≠ [] ∧ ∀ seg ∈ nm, 58 ∉ seg ∧ 123 ∉ seg ∧ trimBytes seg = seg := by
  simp only [wfNameB, wfSegB, Bool.and_eq_true, decide_eq_true_eq,
    List.all_eq_true] at h
  exact ⟨h.1, fun seg hs => ⟨(h.2 seg hs).1.1, (h.2 seg hs).1.2, (h.2 seg hs).2⟩⟩

theorem wfKeyB_parts (k : ByteStr) (h : wfKeyB k = true) :
    k ≠ [] ∧ 61 ∉ k ∧ 125 ∉ k := by
  simp only [wfKeyB, Bool.and_eq_true, decide_eq_true_eq] at h
  exact ⟨h.1.1, h.1.2, h.2⟩

theorem map_trim_wf (nm : List ByteStr) (h : ∀ seg ∈ nm, trimBytes seg = seg) :
    nm.map trimBytes = nm := by
  induction nm with
  | nil => rfl
  | cons x xs ih =>
    simp only [List.map_cons, h x (List.mem_cons_self _ _),
      ih (fun seg hs => h seg (List.mem_cons_of_mem _ hs))]

theorem not_mem_joinByte (nm : List ByteStr) (h : ∀ seg ∈ nm, 123 ∉ seg) :
    123 ∉ joinByte 58 nm := by
  intro hc
  rcases mem_joinByte 58 nm 123 hc with h58 | ⟨x, hx, hm⟩
  · norm_num at h58
  · exact h x hx hm

/-! ### The round trip, in the two stream contexts that occur

Inside a `Namespaced` parameter list every value is followed by `;`;
at the top level the stream simply ends.  The numeric deserializers
consume their terminator through `take_while`, so the two contexts need
separate statements; `Namespaced`'s encoding is self-delimiting (`}`) and
a single tail-polymorphic statement covers both. -/

mutual

theorem rt_parameter_ctx (f : Nat) (p : Parameter) (t : List Nat)
    (hwf : wfParameter p = true) (hf : (serializeParameter p).length + 1 < f) :
    deserializeParameterF f (serializeParameter p ++ 59 :: t) = .ok p t := by
  obtain ⟨f', rfl⟩ : ∃ f', f = f' + 1 := ⟨f - 1, by omega⟩
  cases p with
  | signedInt i =>
    simp only [serializeParameter, List.cons_append, deserializeParameterF]
    rw [spanConsume_append_stop isIntByte (intBytes i) 59 t
      (mem_intBytes_int i) (by rfl)]
    simp [parseInt_intBytes]
  | unsignedInt n =>
    simp only [serializeParameter, List.cons_append, deserializeParameterF]
    rw [spanConsume_append_stop isIntByte (natBytes n) 59 t
      (fun b hb => by simp [isIntByte, mem_natBytes_digit n b hb]) (by rfl)]
    simp [parseNat_natBytes]
  | boolP b =>
    cases b <;> simp [serializeParameter, deserializeParameterF]
  | stringP s =>
    have hser : serializeParameter (.stringP s) ++ 59 :: t =
        115 :: (natBytes s.length ++ 45 :: (s ++ 59 :: t)) := by
      simp [serializeParameter]
    have h1 : spanConsume isDigitByte (natBytes s.length ++ 45 :: (s ++ 59 :: t)) =
        (natBytes s.length, s ++ 59 :: t) :=
      spanConsume_append_stop _ _ _ _ (mem_natBytes_digit s.length) (by rfl)
    rw [hser]
    simp [deserializeParameterF, h1, parseNat_natBytes, take_append_self,
      drop_append_self]
  | namespacedP nm ps =>
    simp only [wfParameter, Bool.and_eq_true] at hwf
    have hlen : (serializeParameter (.namespacedP nm ps)).length =
        (joinByte 58 nm).length + (serializeParams ps).length + 3 := by
      simp [serializeParameter]; omega
    rw [hlen] at hf
    have hser : serializeParameter (.namespacedP nm ps) ++ 59 :: t =
        110 :: (joinByte 58 nm ++ 123 :: (serializeParams ps ++ 125 :: (59 :: t))) := by
      simp [serializeParameter]
    have h1 : deserializeNamespacedF f'
        (joinByte 58 nm ++ 123 :: (serializeParams ps ++ 125 :: (59 :: t))) =
        .ok ⟨nm, ps⟩ (59 :: t) :=
      rt_namespaced_tail f' nm ps (59 :: t) hwf.1 hwf.2 (by omega)
    rw [hser]
    simp [deserializeParameterF, h1]

theorem rt_namespaced_tail (f : Nat) (nm : List ByteStr)
    (ps : List (ByteStr × Parameter)) (t : List Nat)
    (hnm : wfNameB nm = true) (hps : wfParams ps = true)
    (hf : (joinByte 58 nm).length + (serializeParams ps).length + 2 < f) :
    deserializeNamespacedF f
      (joinByte 58 nm ++ 123 :: (serializeParams ps ++ 125 :: t)) = .ok ⟨nm, ps⟩ t := by
  obtain ⟨f', rfl⟩ : ∃ f', f = f' + 1 := ⟨f - 1, by omega⟩
  obtain ⟨hne, hsegs⟩ := wfNameB_parts nm hnm
  have h1 : takeUntilByte 123
      (joinByte 58 nm ++ 123 :: (serializeParams ps ++ 125 :: t)) =
      some (joinByte 58 nm, serializeParams ps ++ 125 :: t) :=
    takeUntilByte_append _ _ _
      (not_mem_joinByte nm (fun seg hs => (hsegs seg hs).2.1))
  have h2 : splitByte 58 (joinByte 58 nm) = nm :=
    splitByte_join 58 nm hne (fun seg hs => (hsegs seg hs).1)
  have h3 : nm.map trimBytes = nm :=
    map_trim_wf nm (fun seg hs => (hsegs seg hs).2.2)
  have h4 : parseParamsF f' (serializeParams ps ++ 125 :: t) [] = .ok ps t :=
    rt_params_loop f' ps [] t hps (fun e he => absurd he (List.not_mem_nil e))
      (by omega)
  simp [deserializeNamespacedF, h1, h2, h3, h4]

theorem rt_params_loop (f : Nat) (ps : List (ByteStr × Parameter))
    (acc : List (ByteStr × Parameter)) (t : List Nat)
    (hps : wfParams ps = true)
    (hdisj : ∀ e ∈ acc, ∀ e' ∈ ps, e.1 ≠ e'.1)
    (hf : (serializeParams ps).length + 1 < f) :
    parseParamsF f (serializeParams ps ++ 125 :: t) acc = .ok (acc ++ ps) t := by
  obtain ⟨f', rfl⟩ : ∃ f', f = f' + 1 := ⟨f - 1, by omega⟩
  cases ps with
  | nil =>
    simp only [serializeParams, List.nil_append, parseParamsF, readKey_end,
      List.append_nil]
  | cons e rest =>
    obtain ⟨k, v⟩ := e
    simp only [wfParams, Bool.and_eq_true, decide_eq_true_eq] at hps
    obtain ⟨⟨⟨hkey, hdup⟩, hwfv⟩, hwfrest⟩ := hps
    obtain ⟨hkne, hk61, hk125⟩ := wfKeyB_parts k hkey
    have hklen : 1 ≤ k.length := List.length_pos.mpr hkne
    have hvlen := serializeParameter_length_pos v
    have hlen : (serializeParams ((k, v) :: rest)).length =
        k.length + (serializeParameter v).length + (serializeParams rest).length
          + 2 := by
      simp [serializeParams]; omega
    rw [hlen] at hf
    have hser : serializeParams ((k, v) :: rest) ++ 125 :: t =
        k ++ 61 :: (serializeParameter v ++ 59 :: (serializeParams rest ++ 125 :: t)) := by
      simp [serializeParams]
    have h1 : readKey
        (k ++ 61 :: (serializeParameter v ++ 59 :: (serializeParams rest ++ 125 :: t))) =
        .key k (serializeParameter v ++ 59 :: (serializeParams rest ++ 125 :: t)) :=
      readKey_wf k _ hkne hk61 hk125
    have h2 : deserializeParameterF f'
        (serializeParameter v ++ 59 :: (serializeParams rest ++ 125 :: t)) =
        .ok v (serializeParams rest ++ 125 :: t) :=
      rt_parameter_ctx f' v _ hwfv (by omega)
    have h3 : insertLHM acc k v = acc ++ [(k, v)] :=
      insertLHM_append acc k v (fun e he =>
        hdisj e he (k, v) (List.mem_cons_self _ _))
    have hdisj' : ∀ e ∈ acc ++ [(k, v)], ∀ e' ∈ rest, e.1 ≠ e'.1 := by
      intro e he e' he'
      rcases List.mem_append.mp he with h | h
      · exact hdisj e h e' (List.mem_cons_of_mem _ he')
      · have : e = (k, v) := by simpa using h
        subst this
        exact fun hc => (hdup e' he') (hc ▸ rfl)
    have h4 : parseParamsF f' (serializeParams rest ++ 125 :: t) (acc ++ [(k, v)]) =
        .ok ((acc ++ [(k, v)]) ++ rest) t :=
      rt_params_loop f' rest (acc ++ [(k, v)]) t hwfrest hdisj' (by omega)
    rw [hser]
    simp [parseParamsF, h1, h2, h3, h4]

end

/-- `Parameter::serialize`, under its source name. -/
def Parameter.serialize (p : Parameter) : ByteStr := serializeParameter p

theorem rt_parameter_eof (f : Nat) (p : Parameter)
    (hwf : wfParameter p = true) (hf : (serializeParameter p).length < f) :
    deserializeParameterF f (serializeParameter p) = .ok p [] := by
  obtain ⟨f', rfl⟩ : ∃ f', f = f' + 1 := ⟨f - 1, by omega⟩
  cases p with
  | signedInt i =>
    simp only [serializeParameter, deserializeParameterF]
    rw [spanConsume_all isIntByte (intBytes i) (mem_intBytes_int i)]
    simp [parseInt_intBytes]
  | unsignedInt n =>
    simp only [serializeParameter, deserializeParameterF]
    rw [spanConsume_all isIntByte (natBytes n)
      (fun b hb => by simp [isIntByte, mem_natBytes_digit n b hb])]
    simp [parseNat_natBytes]
  | boolP b =>
    cases b <;> simp [serializeParameter, deserializeParameterF]
  | stringP s =>
    have h1 : spanConsume isDigitByte (natBytes s.length ++ 45 :: s) =
        (natBytes s.length, s) :=
      spanConsume_append_stop _ _ _ _ (mem_natBytes_digit s.length) (by rfl)
    simp [serializeParameter, deserializeParameterF, h1, parseNat_natBytes]
  | namespacedP nm ps =>
    simp only [wfParameter, Bool.and_eq_true] at hwf
    have hlen : (serializeParameter (.namespacedP nm ps)).length =
        (joinByte 58 nm).length + (serializeParams ps).length + 3 := by
      simp [serializeParameter]; omega
    rw [hlen] at hf
    have hser : serializeParameter (.namespacedP nm ps) =
        110 :: (joinByte 58 nm ++ 123 :: (serializeParams ps ++ 125 :: ([] : List Nat))) := by
      simp [serializeParameter]
    have h1 : deserializeNamespacedF f'
        (joinByte 58 nm ++ 123 :: (serializeParams ps ++ 125 :: ([] : List Nat))) =
        .ok ⟨nm, ps⟩ [] :=
      rt_namespaced_tail f' nm ps [] hwf.1 hwf.2 (by omega)
    rw [hser]
    simp [deserializeParameterF, h1]

/-- A `Namespaced` tree whose field key contains `=`: keys are plain Rust
`String`s with no documented character restriction, but the textual format
cannot carry this one back. -/
def c1BadTree : Parameter :=
  .namespacedP [[120]] [([97, 61, 98], .boolP true)]

/-- A representative well-formed tree exercising every modelled kind. -/
def c1GoodTree : Parameter :=
  .namespacedP [bytes "livemod", bytes "struct"]
    [(bytes "a", .signedInt (-37)),
     (bytes "b", .unsignedInt 12),
     (bytes "c", .stringP [120, 59, 125, 61, 121]),
     (bytes "d", .boolP false),
     (bytes "e", .namespacedP [bytes "livemod", bytes "bool"] [])]

/-- C1 (counterexample): `serialize` then `deserialize` does **not**
reproduce every tree.  The key `"a=b"` serializes to `a=b=t;`, and
deserialization stops at the key's `=`, reads `b` as a parameter tag, and
fails with `InvalidParameter(b'b')` — so the round trip is not the
identity on all built-in `Parameter` values. -/
theorem c1_roundtrip_counterexample :
    Parameter.deserialize (Parameter.serialize c1BadTree) =
      .err (.invalidParameter 98) ∧
    Parameter.deserialize (Parameter.serialize c1BadTree) ≠
      .ok c1BadTree [] := by
  have h1 : Parameter.deserialize (Parameter.serialize c1BadTree) =
      .err (.invalidParameter 98) := by rfl
  refine ⟨h1, ?_⟩
  rw [h1]
  intro h
  exact DesResult.noConfusion h

/-- C1 (amended): for every well-formed tree — name list nonempty, name
segments free of `:`/`{` and whitespace-trim-invariant, keys nonempty,
free of `=`/`}` and duplicate-free, recursively — `Parameter::serialize`
followed by `Parameter::deserialize` reproduces the original value
exactly: numeric equality for the integer kinds, the exact bytes for
strings and booleans, and a structurally equal `Namespaced` tree for the
nested kind.  (The float kind is outside the model.) -/
theorem c1_roundtrip_wf (p : Parameter) (hwf : wfParameter p = true) :
    Parameter.deserialize (Parameter.serialize p) = .ok p [] := by
  show deserializeParameterF ((serializeParameter p).length + 1)
    (serializeParameter p) = .ok p []
  exact rt_parameter_eof _ p hwf (Nat.lt_succ_self _)

/-- C1 witness: the amended round trip at a concrete well-formed tree. -/
theorem c1_roundtrip_wf_witness :
    wfParameter c1GoodTree = true ∧
    Parameter.deserialize (Parameter.serialize c1GoodTree) = .ok c1GoodTree [] :=
  ⟨by decide, c1_roundtrip_wf c1GoodTree (by decide)⟩

/-- C9: `Parameter::deserialize` on an empty stream panics (it `unwrap`s
the missing first byte) rather than returning `UnexpectedEOF`; it also
panics (failed `parse().unwrap()`) when a numeric payload is truncated
away.  `Namespaced::deserialize` is the function that reports
`UnexpectedEOF` on truncated input (empty stream, or a name/key cut
short). -/
theorem c9_deserialize_truncation :
    Parameter.deserialize [] = .panic ∧
    Parameter.deserialize [105] = .panic ∧
    Namespaced.deserialize [] = .err .unexpectedEOF ∧
    Namespaced.deserialize [97] = .err .unexpectedEOF ∧
    Namespaced.deserialize [97, 123, 98] = .err .unexpectedEOF := by
  refine ⟨rfl, rfl, rfl, rfl, rfl⟩

/-- `<u32 as LiveModCtor>::repr_static()` as a `Namespaced` tree:
`BuiltinRepr::UnsignedInteger { min: u32::MIN as u64, max: u32::MAX as u64 }`
through `From<BuiltinRepr> for Namespaced<Repr>` (lib.rs lines 445-452),
generalized over the bit width. -/
def uintReprStatic (w : Nat) : Namespaced :=
  ⟨[bytes "livemod", bytes "uint"],
   [(bytes "min", .unsignedInt 0), (bytes "max", .unsignedInt (2 ^ w - 1))]⟩

/-- C2: the §3 textual serializations at the end-to-end example input
(a `u32` variable with value 5): the schema tree serializes to
`livemod:uint{min=u0;max=u4294967295;}` and the value to `u5`.  These are
the payloads the spec says the `n<name>;<repr>;<value>` line carries;
`input_thread` in enabled.rs instead emits base64-encoded `nanoserde`
binary through an API (`TrackedDataValue`, zero-argument `repr_default`)
that no longer exists in lib.rs, so the module does not even compile —
the claim describes the intended behaviour and the code is stale. -/
theorem c2_section3_payloads :
    Namespaced.serialize (uintReprStatic 32) =
      bytes "livemod:uint{min=u0;max=u4294967295;}" ∧
    Parameter.serialize (.unsignedInt 5) = bytes "u5" := by
  refine ⟨by decide, by decide⟩

/-! ## The reflection contract (`ActionTarget`, `LiveMod::accept`)

Path segments are `ByteStr`s (the `&str` field names).  `debug_assert!`
calls vanish in release builds and are not modelled.  Each `accept` is
modelled as a pure function from the current value, the target and the
incoming `Parameter` to `Option (new value × schema-changed)`, where
`none` is a Rust panic. -/

inductive ActionTarget where
  | this
  | field (fields : List ByteStr)

/-- `ActionTarget::strip_one_field`.  (`Field` is only ever constructed
with a nonempty slice — `from_name_and_fields` — so the `field []` case
is unreachable.) -/
def ActionTarget.stripOneField : ActionTarget → Option (ByteStr × ActionTarget)
  | .this => none
  | .field [] => none
  | .field (f :: rest) =>
    some (f, if rest.isEmpty then ActionTarget.this else ActionTarget.field rest)

/-- `i64 as iN`: two's-complement truncation to `w` bits. -/
def wrapSigned (w : Nat) (v : Int) : Int :=
  let m := v % (2 ^ w : Int)
  if m < 2 ^ (w - 1) then m else m - 2 ^ w

/-- `unsigned_primitive_impl!`'s `accept` (lib.rs lines 667-671) for the
`w`-bit unsigned type: `*self = value.try_into_unsigned_int().unwrap() as $ty`,
returning `false`.  A non-`UnsignedInt` value panics (`unwrap` on `Err`). -/
def uintAccept (w : Nat) (_cur : Nat) (_target : ActionTarget)
    (value : Parameter) : Option (Nat × Bool) :=
  match value with
  | .unsignedInt v => some (v % 2 ^ w, false)
  | _ => none

/-- `signed_primitive_impl!`'s `accept` (lib.rs lines 704-708). -/
def sintAccept (w : Nat) (_cur : Int) (_target : ActionTarget)
    (value : Parameter) : Option (Int × Bool) :=
  match value with
  | .signedInt v => some (wrapSigned w v, false)
  | _ => none

/-- `<bool as LiveMod>::accept` (lib.rs lines 779-783). -/
def boolAccept (_cur : Bool) (_target : ActionTarget)
    (value : Parameter) : Option (Bool × Bool) :=
  match value with
  | .boolP b => some (b, false)
  | _ => none

/-- `<String as LiveMod>::accept` (lib.rs lines 807-811). -/
def stringAccept (_cur : ByteStr) (_target : ActionTarget)
    (value : Parameter) : Option (ByteStr × Bool) :=
  match value with
  | .stringP s => some (s, false)
  | _ => none

theorem wrapSigned_eq_self (w : Nat) (i : Int) (hw : 1 ≤ w)
    (hlo : -(2 ^ (w - 1) : Int) ≤ i) (hhi : i < 2 ^ (w - 1)) :
    wrapSigned w i = i := by
  obtain ⟨u, rfl⟩ : ∃ u, w = u + 1 := ⟨w - 1, by omega⟩
  simp only [Nat.add_sub_cancel] at hlo hhi
  have hA : (0 : Int) < 2 ^ u := pow_pos (by norm_num) u
  have h2 : (2 : Int) ^ (u + 1) = 2 * 2 ^ u := by ring
  simp only [wrapSigned, Nat.add_sub_cancel]
  by_cases hpos : 0 ≤ i
  · have hm : i % 2 ^ (u + 1) = i :=
      Int.emod_eq_of_lt hpos (by rw [h2]; omega)
    rw [hm]
    simp [hhi]
  · have hme : (i + 2 ^ (u + 1)) % 2 ^ (u + 1) = i % 2 ^ (u + 1) := by
      simp
    have hm : i % 2 ^ (u + 1) = i + 2 ^ (u + 1) := by
      rw [← hme]
      exact Int.emod_eq_of_lt (by rw [h2]; omega) (by rw [h2]; omega)
    rw [hm]
    have hge : ¬(i + 2 ^ (u + 1) < 2 ^ u) := by rw [h2]; omega
    simp only [hge, if_false]
    omega

/-- C7 (counterexample): at `u8`, an `UnsignedInt` value outside the
advertised `[0, 255]` range is truncated by the `as` cast, so `accept`
does **not** fully replace the stored value with the given one:
`accept(this, u300)` stores `44`. -/
theorem c7_leaf_counterexample :
    uintAccept 8 0 .this (.unsignedInt 300) = some (44, false) ∧
    (44 : Nat) ≠ 300 := ⟨by decide, by decide⟩

/-- C7 (amended): a primitive leaf `accept` with target *this* and a
value of the advertised kind replaces the stored value with the given
value truncated to the type's width (`% 2^w` unsigned, two's complement
signed — hence exactly the given value whenever it lies in the
advertised range, and always exactly for `bool`/`String`), and reports
schema-changed = false; a value of any other kind panics. -/
theorem c7_leaf_accept :
    (∀ w cur t v, uintAccept w cur t (.unsignedInt v) = some (v % 2 ^ w, false)) ∧
    (∀ w cur t v, v < 2 ^ w →
      uintAccept w cur t (.unsignedInt v) = some (v, false)) ∧
    (∀ w cur t i, sintAccept w cur t (.signedInt i) = some (wrapSigned w i, false)) ∧
    (∀ w cur t i, 1 ≤ w → -(2 ^ (w - 1) : Int) ≤ i → i < 2 ^ (w - 1) →
      sintAccept w cur t (.signedInt i) = some (i, false)) ∧
    (∀ cur t b, boolAccept cur t (.boolP b) = some (b, false)) ∧
    (∀ cur t s, stringAccept cur t (.stringP s) = some (s, false)) ∧
    (∀ w cur t v, (∀ u, v ≠ .unsignedInt u) → uintAccept w cur t v = none) ∧
    (∀ w cur t v, (∀ i, v ≠ .signedInt i) → sintAccept w cur t v = none) ∧
    (∀ cur t v, (∀ b, v ≠ .boolP b) → boolAccept cur t v = none) ∧
    (∀ cur t v, (∀ s, v ≠ .stringP s) → stringAccept cur t v = none) := by
  refine ⟨fun w cur t v => rfl,
    fun w cur t v hv => ?_,
    fun w cur t i => rfl,
    fun w cur t i hw hlo hhi => ?_,
    fun cur t b => rfl,
    fun cur t s => rfl,
    fun w cur t v hv => ?_,
    fun w cur t v hv => ?_,
    fun cur t v hv => ?_,
    fun cur t v hv => ?_⟩
  · simp [uintAccept, Nat.mod_eq_of_lt hv]
  · simp [sintAccept, wrapSigned_eq_self w i hw hlo hhi]
  · cases v with
    | unsignedInt u => exact absurd rfl (hv u)
    | _ => rfl
  · cases v with
    | signedInt i => exact absurd rfl (hv i)
    | _ => rfl
  · cases v with
    | boolP b => exact absurd rfl (hv b)
    | _ => rfl
  · cases v with
    | stringP s => exact absurd rfl (hv s)
    | _ => rfl

/-- C7 witness: the amended statement at concrete inputs (`u8` accepting
an in-range 200, `i8` accepting -100, `u8` panicking on a signed value). -/
theorem c7_leaf_accept_witness :
    uintAccept 8 7 .this (.unsignedInt 200) = some (200, false) ∧
    sintAccept 8 3 .this (.signedInt (-100)) = some (-100, false) ∧
    uintAccept 8 7 .this (.signedInt 3) = none :=
  ⟨c7_leaf_accept.2.1 8 7 .this 200 (by decide),
   c7_leaf_accept.2.2.2.1 8 3 .this (-100) (by decide) (by decide) (by decide),
   c7_leaf_accept.2.2.2.2.2.2.1 8 7 .this (.signedInt 3)
     (fun u h => Parameter.noConfusion h)⟩

/-! ## `<Vec<T> as LiveMod>::accept` (C5) -/

/-- `LinkedHashMap`'s `Index` lookup (`trigger.parameters["idx"]`):
`none` models the panic on a missing key. -/
def lookupLHM : List (ByteStr × Parameter) → ByteStr → Option Parameter
  | [], _ => none
  | (k, v) :: rest, key => if k = key then some v else lookupLHM rest key

/-- `Vec::resize_with(len, Default::default)`. -/
def resizeWith {α : Type} (v : List α) (len : Nat) (dflt : α) : List α :=
  if len ≤ v.length then v.take len
  else v ++ List.replicate (len - v.length) dflt

/-- `Vec::swap(a, b)` (in-bounds case). -/
def swapList {α : Type} (v : List α) (a b : Nat) : List α :=
  match v.get? a, v.get? b with
  | some xa, some xb => (v.set a xb).set b xa
  | _, _ => v

/-- `<Vec<T> as LiveMod>::accept` (lib.rs lines 902-937), generic over
the element type's binding (`elemAccept`) and `T::default()` (`dflt`). -/
def vecAccept {α : Type}
    (elemAccept : α → ActionTarget → Parameter → Option (α × Bool))
    (dflt : α) (v : List α) (target : ActionTarget) (value : Parameter) :
    Option (List α × Bool) :=
  match target.stripOneField with
  | some (field, ftarget) =>
    if field = bytes "len" then
      match value with
      | .unsignedInt len =>
        if len ≠ v.length then some (resizeWith v len dflt, true)
        else some (v, false)
      | _ => none
    else
      match parseNat? field with
      | none => none
      | some i =>
        if h : i < v.length then
          (elemAccept (v.get ⟨i, h⟩) ftarget value).map
            (fun r => (v.set i r.1, r.2))
        else none
  | none =>
    match value with
    | .namespacedP nm ps =>
      match nm[2]? with
      | none => none
      | some s3 =>
        if s3 = bytes "rm" then
          match lookupLHM ps (bytes "idx") with
          | some (.unsignedInt idx) =>
            if idx < v.length then some (v.eraseIdx idx, true) else none
          | _ => none
        else if s3 = bytes "swp" then
          match lookupLHM ps (bytes "a"), lookupLHM ps (bytes "b") with
          | some (.unsignedInt a), some (.unsignedInt b) =>
            if a < v.length ∧ b < v.length then some (swapList v a b, true)
            else none
          | _, _ => none
        else some (v, true)
    | _ => none

/-- C5: `accept("len", k)` on a vector of length `m` resizes to length
`k` — growth appends default-constructed elements, shrink truncates — so
the result is `v.take k ++ replicate (k - m) default`; it has length `k`,
agrees with `v` on the first `min(m, k)` elements, and the reported
schema-changed flag is `true` iff `k ≠ m`. -/
theorem c5_vec_len_accept {α : Type}
    (elemAccept : α → ActionTarget → Parameter → Option (α × Bool))
    (dflt : α) (v : List α) (k : Nat) :
    vecAccept elemAccept dflt v (.field [bytes "len"]) (.unsignedInt k) =
      some (v.take k ++ List.replicate (k - v.length) dflt,
        decide (k ≠ v.length)) ∧
    (v.take k ++ List.replicate (k - v.length) dflt).length = k ∧
    (v.take k ++ List.replicate (k - v.length) dflt).take (min v.length k) =
      v.take (min v.length k) := by
  refine ⟨?_, ?_, ?_⟩
  · by_cases hk : k = v.length
    · subst hk
      simp [vecAccept, ActionTarget.stripOneField, resizeWith, List.take_length]
    · have hres : resizeWith v k dflt =
          v.take k ++ List.replicate (k - v.length) dflt := by
        unfold resizeWith
        by_cases hle : k ≤ v.length
        · simp [hle, Nat.sub_eq_zero_of_le hle]
        · have : v.take k = v := List.take_of_length_le (by omega)
          simp [hle, this]
      simp [vecAccept, ActionTarget.stripOneField, hk, hres]
  · simp only [List.length_append, List.length_take, List.length_replicate]
    omega
  · by_cases hle : k ≤ v.length
    · have h0 : k - v.length = 0 := by omega
      have hmin : min v.length k = k := by omega
      simp [h0, hmin, List.take_take]
    · have hmin : min v.length k = v.length := by omega
      have : v.take k = v := List.take_of_length_le (by omega)
      rw [hmin, this, List.take_length]
      exact take_append_self v _

/-! ## `<HashMap<K, V> as LiveMod>::accept` (C8, C10)

The map is modelled as an association list with pairwise-distinct keys
(iteration order is irrelevant to these claims).  The key type's
`LiveModCtor`/`LiveMod` operations are abstracted as `KeyOps`. -/

/-- The `K: LiveModCtor` operations the map binding uses. -/
structure KeyOps (κ : Type) where
  fromValue : Parameter → Option κ
  accept : κ → ActionTarget → Parameter → Option (κ × Bool)

/-- `HashMap::get`. -/
def listLookup {κ ν : Type} [DecidableEq κ] : List (κ × ν) → κ → Option ν
  | [], _ => none
  | (k, v) :: rest, key => if k = key then some v else listLookup rest key

/-- `HashMap::remove_entry`: the stored pair and the map without it. -/
def listRemoveEntry {κ ν : Type} [DecidableEq κ] :
    List (κ × ν) → κ → Option ((κ × ν) × List (κ × ν))
  | [], _ => none
  | (k, v) :: rest, key =>
    if k = key then some ((k, v), rest)
    else (listRemoveEntry rest key).map (fun r => (r.1, (k, v) :: r.2))

/-- `HashMap::insert`: replaces the value if the key is present
(no second entry), otherwise adds the entry. -/
def listInsertMap {κ ν : Type} [DecidableEq κ] :
    List (κ × ν) → κ → ν → List (κ × ν)
  | [], key, val => [(key, val)]
  | (k, v) :: rest, key, val =>
    if k = key then (k, val) :: rest else (k, v) :: listInsertMap rest key val

/-- `HashMap::remove` (absent key is a no-op, not a panic). -/
def listRemove {κ ν : Type} [DecidableEq κ] : List (κ × ν) → κ → List (κ × ν)
  | [], _ => []
  | (k, v) :: rest, key => if k = key then rest else (k, v) :: listRemove rest key

/-- `Result::unwrap` on a deserialization outcome. -/
def desOk : DesResult Parameter → Option Parameter
  | .ok v _ => some v
  | _ => none

/-- `<HashMap<K, V> as LiveMod>::accept` (lib.rs lines 1024-1066). -/
def hashmapAccept {κ ν : Type} [DecidableEq κ] (kops : KeyOps κ)
    (vAccept : ν → ActionTarget → Parameter → Option (ν × Bool)) (vDefault : ν)
    (m : List (κ × ν)) (target : ActionTarget) (value : Parameter) :
    Option (List (κ × ν) × Bool) :=
  match target.stripOneField with
  | some (field, ftarget) =>
    if field = bytes "keys" then
      match ftarget.stripOneField with
      | some (f2, ft2) =>
        match (desOk (Parameter.deserialize f2)).bind kops.fromValue with
        | none => none
        | some k0 =>
          match listRemoveEntry m k0 with
          | none => none
          | some ((k, v), m2) =>
            match kops.accept k ft2 value with
            | none => none
            | some r => some (listInsertMap m2 r.1 v, true)
      | none => none
    else if field = bytes "values" then
      match ftarget.stripOneField with
      | some (f2, ft2) =>
        match (desOk (Parameter.deserialize f2)).bind kops.fromValue with
        | none => none
        | some k0 =>
          match listLookup m k0 with
          | none => none
          | some v =>
            match vAccept v ft2 value with
            | none => none
            | some r => some (listInsertMap m k0 r.1, r.2)
      | none => none
    else none
  | none =>
    match value with
    | .namespacedP nm ps =>
      match nm[2]? with
      | none => none
      | some s3 =>
        if s3 = bytes "rm" then
          match (lookupLHM ps (bytes "key")).bind kops.fromValue with
          | none => none
          | some k => some (listRemove m k, true)
        else if s3 = bytes "insert" then
          match (lookupLHM ps (bytes "key")).bind kops.fromValue with
          | none => none
          | some k => some (listInsertMap m k vDefault, true)
        else some (m, true)
    | _ => none

/-- `<u32 as LiveModCtor>::from_value` / `<u32 as LiveMod>::accept`. -/
def u32KeyOps : KeyOps Nat where
  fromValue := fun p =>
    match p with
    | .unsignedInt v => some (v % 2 ^ 32)
    | _ => none
  accept := fun cur t v => uintAccept 32 cur t v

theorem listLookup_listInsertMap {κ ν : Type} [DecidableEq κ]
    (m : List (κ × ν)) (k : κ) (v : ν) :
    listLookup (listInsertMap m k v) k = some v := by
  induction m with
  | nil => simp [listInsertMap, listLookup]
  | cons e rest ih =>
    obtain ⟨k0, v0⟩ := e
    by_cases hk : k0 = k
    · simp [listInsertMap, listLookup, hk]
    · simp [listInsertMap, listLookup, hk, ih]

theorem listInsertMap_of_mem {κ ν : Type} [DecidableEq κ]
    (m : List (κ × ν)) (k : κ) (d v0 : ν) (h : listLookup m k = some v0) :
    (listInsertMap m k d).length = m.length ∧
    (listInsertMap m k d).map Prod.fst = m.map Prod.fst := by
  induction m with
  | nil => simp [listLookup] at h
  | cons e rest ih =>
    obtain ⟨k0, w⟩ := e
    by_cases hk : k0 = k
    · simp [listInsertMap, hk]
    · simp only [listLookup, hk, if_false] at h
      have := ih h
      simp [listInsertMap, hk, this.1, this.2]

theorem deserialize_uint_seg (k : Nat) :
    Parameter.deserialize (117 :: natBytes k) = .ok (.unsignedInt k) [] := by
  have h : serializeParameter (.unsignedInt k) = 117 :: natBytes k := rfl
  show deserializeParameterF ((117 :: natBytes k).length + 1) (117 :: natBytes k) =
    .ok (.unsignedInt k) []
  rw [← h]
  exact rt_parameter_eof _ _ (by rfl) (by rw [h]; exact Nat.lt_succ_self _)

/-- C8 (counterexample): a *single* `accept` on the `keys` branch renames
an existing key in place while keeping its value.  On the map `{5 ↦ 7}`
(`u32` keys and values), `accept(["keys", "u5"], u9)` yields `{9 ↦ 7}`
with schema-changed = true: key `5` is gone, key `9` holds the old value
`7`, with no remove/insert control message involved. -/
theorem c8_rename_counterexample :
    hashmapAccept u32KeyOps (fun cur t v => uintAccept 32 cur t v) 0
      [(5, 7)] (.field [bytes "keys", bytes "u5"]) (.unsignedInt 9) =
      some ([(9, 7)], true) ∧
    listLookup [((9 : Nat), (7 : Nat))] 9 = some 7 ∧
    listLookup [((9 : Nat), (7 : Nat))] 5 = none := by
  refine ⟨by decide, by decide, by decide⟩

/-- C8 (amended): the `keys` branch of the map's `accept` performs an
in-place rename in one operation: `accept(["keys", <serialized key>], j)`
removes the entry, runs the key type's `accept` on the key, and reinserts
the *original value* under the new key, reporting schema-changed = true.
Remove-then-reinsert control messages are not required to change a key. -/
theorem c8_keys_rename (m m2 : List (Nat × Nat)) (k j v : Nat)
    (hk : k < 2 ^ 32) (hj : j < 2 ^ 32)
    (hrm : listRemoveEntry m k = some ((k, v), m2)) :
    hashmapAccept u32KeyOps (fun cur t val => uintAccept 32 cur t val) 0 m
      (.field [bytes "keys", 117 :: natBytes k]) (.unsignedInt j) =
      some (listInsertMap m2 j v, true) ∧
    listLookup (listInsertMap m2 j v) j = some v := by
  have hk2 : k % 4294967296 = k := Nat.mod_eq_of_lt (by omega)
  have hj2 : j % 4294967296 = j := Nat.mod_eq_of_lt (by omega)
  constructor
  · simp [hashmapAccept, ActionTarget.stripOneField, deserialize_uint_seg,
      desOk, u32KeyOps, uintAccept, hrm, hk2, hj2]
  · exact listLookup_listInsertMap m2 j v

/-- C8 witness: the amended rename statement at the concrete map `{5 ↦ 7}`. -/
theorem c8_keys_rename_witness :
    hashmapAccept u32KeyOps (fun cur t val => uintAccept 32 cur t val) 0
      [(5, 7)] (.field [bytes "keys", 117 :: natBytes 5]) (.unsignedInt 9) =
      some (listInsertMap [] 9 7, true) ∧
    listLookup (listInsertMap ([] : List (Nat × Nat)) 9 7) 9 = some 7 :=
  c8_keys_rename [(5, 7)] [] 5 9 7 (by decide) (by decide) (by decide)

/-- C10: on a map that already contains the key, an `insert` control
message does not add a second entry: `HashMap::insert` replaces the
existing entry's value with the value type's default — the key count and
key set are unchanged, the key now maps to the default — and the
operation still reports schema-changed = true. -/
theorem c10_insert_existing {κ ν : Type} [DecidableEq κ] (kops : KeyOps κ)
    (vAccept : ν → ActionTarget → Parameter → Option (ν × Bool)) (d : ν)
    (m : List (κ × ν)) (nm : List ByteStr) (ps : List (ByteStr × Parameter))
    (kv : Parameter) (k : κ) (v0 : ν)
    (hname : nm[2]? = some (bytes "insert"))
    (hkv : lookupLHM ps (bytes "key") = some kv)
    (hfrom : kops.fromValue kv = some k)
    (hmem : listLookup m k = some v0) :
    hashmapAccept kops vAccept d m .this (.namespacedP nm ps) =
      some (listInsertMap m k d, true) ∧
    (listInsertMap m k d).length = m.length ∧
    (listInsertMap m k d).map Prod.fst = m.map Prod.fst ∧
    listLookup (listInsertMap m k d) k = some d := by
  have hne : bytes "insert" ≠ bytes "rm" := by decide
  refine ⟨?_, (listInsertMap_of_mem m k d v0 hmem).1,
    (listInsertMap_of_mem m k d v0 hmem).2, listLookup_listInsertMap m k d⟩
  simp [hashmapAccept, ActionTarget.stripOneField, hname, hkv, hfrom, hne]

/-- C10 witness: inserting the already-present key 5 into `{5 ↦ 7}`. -/
theorem c10_insert_existing_witness :
    hashmapAccept u32KeyOps (fun cur t val => uintAccept 32 cur t val) 0
      [(5, 7)] .this
      (.namespacedP [bytes "livemod", bytes "map", bytes "insert"]
        [(bytes "key", .unsignedInt 5)]) =
      some (listInsertMap [(5, 7)] 5 0, true) ∧
    (listInsertMap [((5 : Nat), (7 : Nat))] 5 0).length = [((5 : Nat), (7 : Nat))].length ∧
    (listInsertMap [((5 : Nat), (7 : Nat))] 5 0).map Prod.fst =
      [((5 : Nat), (7 : Nat))].map Prod.fst ∧
    listLookup (listInsertMap [((5 : Nat), (7 : Nat))] 5 0) 5 = some 0 :=
  c10_insert_existing u32KeyOps (fun cur t val => uintAccept 32 cur t val) 0
    [(5, 7)] [bytes "livemod", bytes "map", bytes "insert"]
    [(bytes "key", .unsignedInt 5)] (.unsignedInt 5) 5 7 rfl rfl rfl rfl

/-! ## Generated enum bindings (C6) -/

/-- Modelled from the spec: the enum arm of the derive macro is absent
from the source (`syn::Data::Enum(en) => todo!()`, livemod-derive
lib.rs line 65), so the contract the generator must produce is taken
from §4.2: enums expose a synthetic `"variant"` pseudo-field; `accept`
on it fully replaces the value with the named variant constructed from
each of that variant's configured per-field defaults and always reports
schema-changed = true; an unknown variant name is fatal; `accept` on any
other name delegates into the currently active variant's fields.
`variantDefaults` maps each variant name to the value built from its
configured per-field defaults; `delegate` is the per-field dispatch. -/
def enumAccept {V : Type} (variantDefaults : List (ByteStr × V))
    (delegate : V → ActionTarget → Parameter → Option (V × Bool))
    (cur : V) (target : ActionTarget) (value : Parameter) : Option (V × Bool) :=
  match target.stripOneField with
  | some (f, _ft) =>
    if f = bytes "variant" then
      match value with
      | .stringP x =>
        match listLookup variantDefaults x with
        | some vd => some (vd, true)
        | none => none
      | _ => none
    else delegate cur target value
  | none => none

/-- C6: `accept("variant", "X")` on an enum binding replaces the value
with variant X built from its configured per-field defaults and reports
schema-changed = true, regardless of the prior value. -/
theorem c6_enum_variant_switch {V : Type} (variantDefaults : List (ByteStr × V))
    (delegate : V → ActionTarget → Parameter → Option (V × Bool))
    (cur : V) (x : ByteStr) (vd : V)
    (hx : listLookup variantDefaults x = some vd) :
    enumAccept variantDefaults delegate cur (.field [bytes "variant"])
      (.stringP x) = some (vd, true) := by
  simp [enumAccept, ActionTarget.stripOneField, hx]

/-- C6 witness: switching a two-variant enum to variant `"B"` from an
arbitrary prior value. -/
theorem c6_enum_variant_switch_witness :
    enumAccept [(bytes "A", (1 : Nat)), (bytes "B", 2)]
      (fun cur _ _ => some (cur, false)) 1
      (.field [bytes "variant"]) (.stringP (bytes "B")) = some (2, true) :=
  c6_enum_variant_switch [(bytes "A", 1), (bytes "B", 2)]
    (fun cur _ _ => some (cur, false)) 1 (bytes "B") 2 (by decide)

/-! ## Dirty tracking through `ModVarMutGuard` (C4)

`ModVar::lock_mut` builds the guard with `Some(UpdateMessage::new(self))`;
`DerefMut::deref_mut` `take`s the option and sends the message the first
time only (enabled.rs lines 141-144, 198-205).  The channel output of a
sequence of mutable dereferences is modelled explicitly. -/

structure ModVarMutGuard (T M : Type) where
  value : T
  pending : Option M

/-- `ModVar::lock_mut`: locking alone sends nothing. -/
def lockMut {T M : Type} (t : T) (msg : M) : ModVarMutGuard T M := ⟨t, some msg⟩

/-- `deref_mut`: `if let Some(msg) = self.1.take() { msg.send(); }` —
returns the updated guard and the messages sent by this call. -/
def derefMut {T M : Type} (g : ModVarMutGuard T M) : ModVarMutGuard T M × List M :=
  match g.pending with
  | some m => (⟨g.value, none⟩, [m])
  | none => (g, [])

/-- `deref` (immutable): sends nothing. -/
def derefImm {T M : Type} (g : ModVarMutGuard T M) : T × List M := (g.value, [])

/-- `n` successive mutable dereferences, collecting all sent messages.
Dropping the guard sends nothing, so this is the guard's whole output. -/
def runDerefMuts {T M : Type} : Nat → ModVarMutGuard T M → ModVarMutGuard T M × List M
  | 0, g => (g, [])
  | n + 1, g =>
    let r1 := derefMut g
    let r2 := runDerefMuts n r1.1
    (r2.1, r1.2 ++ r2.2)

theorem runDerefMuts_none {T M : Type} (n : Nat) (g : ModVarMutGuard T M)
    (h : g.pending = none) : runDerefMuts n g = (g, []) := by
  induction n with
  | zero => rfl
  | succ n ih => simp [runDerefMuts, derefMut, h, ih]

/-- C4: a guard acquired by `lock_mut` and dereferenced mutably `n` times
emits no *updated* message when `n = 0` and exactly one — the message for
that variable — when `n ≥ 1`; an immutable dereference emits nothing. -/
theorem c4_dirty_tracking {T M : Type} (t : T) (msg : M) (n : Nat) :
    (runDerefMuts n (lockMut t msg)).2 = (if n = 0 then [] else [msg]) ∧
    (derefImm (lockMut t msg)).2 = ([] : List M) := by
  refine ⟨?_, rfl⟩
  cases n with
  | zero => rfl
  | succ n =>
    have h1 : derefMut (lockMut t msg) = (⟨t, none⟩, [msg]) := rfl
    simp [runDerefMuts, h1, runDerefMuts_none n ⟨t, none⟩ rfl]

/-! ## The output worker's registry lookup (C3)

One iteration of `output_thread`'s loop (enabled.rs lines 345-437) on an
already-split message.  The downstream navigation/mutation (the
`get_named_value` walk and `trigger` call) uses an API that no longer
exists in lib.rs and is abstracted as `apply`; the registry lookup and
the reply decision are modelled exactly as written: the `HashMap::get`
result is `unwrap`ped, and on schema change an `UpdatedRepr` message for
the path minus its last element is enqueued. -/

inductive ViewerMsg where
  | set (segs : List ByteStr)
  | trig (segs : List ByteStr)

def ViewerMsg.segs : ViewerMsg → List ByteStr
  | .set s => s
  | .trig s => s

/-- One loop iteration: `none` is a panic of the output worker. -/
def outputStep {V : Type}
    (apply : V → List ByteStr → ViewerMsg → Option (V × Bool))
    (registry : List (ByteStr × V)) (msg : ViewerMsg) :
    Option (List (ByteStr × V) × List (List ByteStr)) :=
  match msg.segs.head? with
  | none => none
  | some base =>
    match listLookup registry base with
    | none => none
    | some var =>
      match apply var msg.segs msg with
      | none => none
      | some r =>
        some (listInsertMap registry base r.1,
          if r.2 then [msg.segs.dropLast] else [])

/-- C3 (counterexample): a set message whose leading segment names a
variable absent from the registry is **not** silently ignored: the
lookup's `unwrap` panics the output worker (modelled `none`), which is
different from "no mutation, no reply, continue" (`some (registry, [])`). -/
theorem c3_absent_name_counterexample :
    outputStep (V := Nat) (fun v _ _ => some (v, false)) []
      (.set [bytes "x", bytes "dmFs"]) = none ∧
    outputStep (V := Nat) (fun v _ _ => some (v, false)) []
      (.set [bytes "x", bytes "dmFs"]) ≠ some ([], []) := by
  refine ⟨rfl, ?_⟩
  intro h
  rw [show outputStep (V := Nat) (fun v _ _ => some (v, false)) []
      (.set [bytes "x", bytes "dmFs"]) = none from rfl] at h
  exact Option.noConfusion h

/-- C3 (amended): when the leading path segment of a viewer message (set
or trigger) is not in the registry, the output worker panics — the
`Option` returned by the registry lookup is `unwrap`ped — rather than
ignoring the message; no mutation and no reply occur, but the worker does
not continue either. -/
theorem c3_absent_name_panics {V : Type}
    (apply : V → List ByteStr → ViewerMsg → Option (V × Bool))
    (registry : List (ByteStr × V)) (msg : ViewerMsg) (b : ByteStr)
    (hhead : msg.segs.head? = some b)
    (habs : listLookup registry b = none) :
    outputStep apply registry msg = none := by
  simp [outputStep, hhead, habs]

/-- C3 witness: the amended statement at a concrete trigger message and
empty registry. -/
theorem c3_absent_name_panics_witness :
    outputStep (V := Nat) (fun v _ _ => some (v, true)) []
      (.trig [bytes "y"]) = none :=
  c3_absent_name_panics (fun v _ _ => some (v, true)) [] (.trig [bytes "y"])
    (bytes "y") rfl rfl

end LiveMod
